import Mathlib

/-!
Verification of the live file-tree explorer: a shallow embedding of the
client-side tree projection, navigation and type-ahead logic
(`src/app/utils.ts`, the `FileExplorer` component) and of the server-side
change coalescer and shared-watcher lifecycle (the SSE route), together
with theorems settling the specification's claims about them.
-/

set_option maxHeartbeats 1000000

/-- Tag of a tree node: the source's `type: "file" | "folder"`. -/
inductive NodeType : Type where
  | file : NodeType
  | folder : NodeType
deriving DecidableEq, Repr

/-- The source's `FileTreeNode`: a tagged node with display `name`, unique
`path`, and an optional `children` array (`none` models a missing or
non-array `children` field; every consumer of the field goes through the
`Array.isArray(children) ? children : []` guard, embedded as `childrenOf`).
The purely descriptive metadata fields (`extension`, `sizeInBytes`,
`modifiedAt`) play no role in any traversal and are omitted. -/
inductive FileTreeNode : Type where
  | mk (type : NodeType) (name : String) (path : String)
       (children : Option (List FileTreeNode))

def FileTreeNode.type : FileTreeNode → NodeType
  | .mk t _ _ _ => t

def FileTreeNode.name : FileTreeNode → String
  | .mk _ n _ _ => n

def FileTreeNode.path : FileTreeNode → String
  | .mk _ _ p _ => p

def FileTreeNode.childrenField : FileTreeNode → Option (List FileTreeNode)
  | .mk _ _ _ c => c

/-- The source's `Array.isArray(node.children) ? node.children : []` guard. -/
def childrenOf : FileTreeNode → List FileTreeNode
  | .mk _ _ _ c => c.getD []

/-- The source's `VisibleNode`: a node paired with its rendering depth. -/
structure VisibleNode : Type where
  node : FileTreeNode
  depth : Nat

mutual
/-- Structural size of a node, used as the termination measure of the
explicit-stack searches. -/
def nodeSize : FileTreeNode → Nat
  | .mk _ _ _ c => 1 + optNodeSize c

def optNodeSize : Option (List FileTreeNode) → Nat
  | none => 0
  | some l => forestNodeSize l

def forestNodeSize : List FileTreeNode → Nat
  | [] => 0
  | x :: xs => nodeSize x + forestNodeSize xs
end

theorem forestNodeSize_childrenOf_lt (n : FileTreeNode) :
    forestNodeSize (childrenOf n) < nodeSize n := by
  cases n with
  | mk t nm p c =>
    cases c with
    | none => simp [childrenOf, nodeSize, optNodeSize, forestNodeSize]
    | some l => simp [childrenOf, nodeSize, optNodeSize]

theorem nodeSize_pos (n : FileTreeNode) : 0 < nodeSize n := by
  cases n with
  | mk t nm p c => simp [nodeSize]

/-! The `ExpansionSet` (a JS `Set<string>` of folder paths) is embedded as a
list of paths queried only through membership; `addPath` and `deletePath`
mirror `Set.add` and `Set.delete` on the copies made in the handlers. -/

def hasPath (s : List String) (p : String) : Bool := s.contains p

def addPath (s : List String) (p : String) : List String :=
  if s.contains p then s else s ++ [p]

def deletePath (s : List String) (p : String) : List String := s.erase p

/-! Embedding of `countFilesWithinFolder` (src/app/utils.ts): the recursion on
the children array is split into the node / option-field / list cases so the
definitions stay structurally recursive (and hence kernel-evaluable). -/

mutual
/-- Source `countFilesWithinFolder`: 0 for a non-folder, otherwise the sum
over the (guarded) children of 1 per file child and the recursive count per
folder child. -/
def countFilesWithinFolder : FileTreeNode → Nat
  | .mk ty _ _ c => if ty = NodeType.folder then countFilesOpt c else 0

def countFilesOpt : Option (List FileTreeNode) → Nat
  | none => 0
  | some l => countFilesList l

def countFilesList : List FileTreeNode → Nat
  | [] => 0
  | child :: rest =>
    (if child.type = NodeType.file then 1 else countFilesWithinFolder child)
      + countFilesList rest
end

/-! Spec-side notions for C7: the list of all nodes of a subtree, the strict
descendants of a node, and the well-formedness predicate of the data model
(file nodes are leaves). -/

mutual
/-- All nodes of the subtree rooted at `n`, in pre-order, `n` included. -/
def subtreeNodes : FileTreeNode → List FileTreeNode
  | .mk ty nm p c => .mk ty nm p c :: subtreeOpt c

def subtreeOpt : Option (List FileTreeNode) → List FileTreeNode
  | none => []
  | some l => subtreeForest l

def subtreeForest : List FileTreeNode → List FileTreeNode
  | [] => []
  | x :: xs => subtreeNodes x ++ subtreeForest xs
end

/-- The strict descendants of a node: every node of its subtree except itself. -/
def descendantNodes (n : FileTreeNode) : List FileTreeNode :=
  subtreeForest (childrenOf n)

mutual
/-- Data-model well-formedness: `file`-typed nodes never carry children. -/
def filesAreLeaves : FileTreeNode → Bool
  | .mk ty _ _ c =>
    (decide (ty = NodeType.folder) || (c.getD []).isEmpty) && filesAreLeavesOpt c

def filesAreLeavesOpt : Option (List FileTreeNode) → Bool
  | none => true
  | some l => filesAreLeavesList l

def filesAreLeavesList : List FileTreeNode → Bool
  | [] => true
  | x :: xs => filesAreLeaves x && filesAreLeavesList xs
end

/-! Embedding of `flattenTree` (the FileExplorer component): the imperative
`visit` closure pushes onto a shared `result` array, embedded as an
accumulator threaded through the node / option-field / list cases. -/

mutual
def flattenVisit (expanded : List String) : FileTreeNode → Nat → List VisibleNode → List VisibleNode
  | .mk ty nm p c, depth, result =>
    let result2 := result ++ [⟨.mk ty nm p c, depth⟩]
    if ty = NodeType.folder ∧ expanded.contains p then
      flattenVisitOpt expanded c (depth + 1) result2
    else result2

def flattenVisitOpt (expanded : List String) : Option (List FileTreeNode) → Nat → List VisibleNode → List VisibleNode
  | none, _, result => result
  | some l, depth, result => flattenVisitList expanded l depth result

def flattenVisitList (expanded : List String) : List FileTreeNode → Nat → List VisibleNode → List VisibleNode
  | [], _, result => result
  | x :: xs, depth, result =>
    flattenVisitList expanded xs depth (flattenVisit expanded x depth result)
end

/-- Source `flattenTree(root, expanded)`: depth-first collection of the
visible nodes starting from the root at depth 0. -/
def flattenTree (root : FileTreeNode) (expanded : List String) : List VisibleNode :=
  flattenVisit expanded root 0 []

/-! Spec-side projection for C1, written from the spec's words: a pre-order
sequence in which a node is followed by the projections of its children at
depth+1 exactly when it is a folder whose path is in the expansion set
(so file nodes are always leaves). The refinement theorem identifies
`flattenTree` with this function. -/

mutual
def specProjectNode (expanded : List String) : FileTreeNode → Nat → List VisibleNode
  | .mk ty nm p c, depth =>
    ⟨.mk ty nm p c, depth⟩ ::
      (if ty = NodeType.folder ∧ expanded.contains p then
        specProjectOpt expanded c (depth + 1)
      else [])

def specProjectOpt (expanded : List String) : Option (List FileTreeNode) → Nat → List VisibleNode
  | none, _ => []
  | some l, depth => specProjectForest expanded l depth

def specProjectForest (expanded : List String) : List FileTreeNode → Nat → List VisibleNode
  | [], _ => []
  | x :: xs, depth =>
    specProjectNode expanded x depth ++ specProjectForest expanded xs depth
end

/-! Embedding of the three JavaScript string methods the type-ahead logic
uses, written over the character list of the string so they are
kernel-evaluable (the built-in byte-position-based `String.trim` etc. are
not). `jsToLower` models `toLowerCase` on the ASCII range, which is all the
case folding `Char.toLower` performs. -/

def jsTrim (s : String) : String :=
  ⟨((s.data.dropWhile Char.isWhitespace).reverse.dropWhile Char.isWhitespace).reverse⟩

def jsToLower (s : String) : String := ⟨s.data.map Char.toLower⟩

def jsStartsWith (s pre : String) : Bool := pre.data.isPrefixOf s.data

/-! Embedding of `findTypeaheadMatch` (src/app/utils.ts). `jsFindIndex` is
JavaScript's `Array.findIndex` (−1 when no element matches); the `for` loop
over `offset = 1 .. total` becomes `typeaheadLoop` with an iteration
counter. -/

def jsFindIdx {α : Type} (pred : α → Bool) : List α → Option Nat
  | [] => none
  | x :: xs => if pred x then some 0 else (jsFindIdx pred xs).map (· + 1)

def jsFindIndex {α : Type} (pred : α → Bool) (l : List α) : Int :=
  match jsFindIdx pred l with
  | some i => (i : Int)
  | none => -1

def typeaheadLoop (normalized : String) (nodes : List VisibleNode) (startIndex : Int)
    (total : Nat) (offset : Nat) : Nat → Option VisibleNode
  | 0 => none
  | remaining + 1 =>
    match nodes.get? ((startIndex + offset + total) % (total : Int)).toNat with
    | some candidate =>
      if jsStartsWith (jsToLower candidate.node.name) normalized then some candidate
      else typeaheadLoop normalized nodes startIndex total (offset + 1) remaining
    | none => none

/-- Source `findTypeaheadMatch(query, nodes, selectedPath)`: normalizes the
query by trim + lower-case, resolves the selection to a start index (−1 for a
null — or, by JS truthiness, empty — selected path, and JS `findIndex`
otherwise), then scans `total` circular offsets starting right after it. -/
def findTypeaheadMatch (query : String) (nodes : List VisibleNode)
    (selectedPath : Option String) : Option VisibleNode :=
  let normalized := jsToLower (jsTrim query)
  if normalized = "" ∨ nodes.length = 0 then none
  else
    let startIndex : Int :=
      match selectedPath with
      | some p => if p = "" then -1 else jsFindIndex (fun item => decide (item.node.path = p)) nodes
      | none => -1
    typeaheadLoop normalized nodes startIndex nodes.length 1 nodes.length

/-! Spec-side circular search for C2, written from the spec's words: starting
at the position immediately after the current selection, scan one full circle
of the visible sequence and stop at the first node whose name starts with the
buffer case-insensitively. -/

def specScan (buffer : String) (nodes : List VisibleNode) (pos : Nat) : Nat → Option VisibleNode
  | 0 => none
  | k + 1 =>
    match nodes.get? (pos % nodes.length) with
    | some v =>
      if jsStartsWith (jsToLower v.node.name) (jsToLower buffer) then some v
      else specScan buffer nodes (pos + 1) k
    | none => none

def specCircularMatch (buffer : String) (nodes : List VisibleNode) (startIdx : Nat) : Option VisibleNode :=
  specScan buffer nodes (startIdx + 1) nodes.length

/-- Source `moveSelection(delta)` from the FileExplorer keyboard handler,
made explicit in its inputs (the current visible sequence and selected path)
and its output (the next selected path). Out-of-range element accesses,
unreachable for the indices the code computes, are mapped to `none`. -/
def moveSelection (visibleNodes : List VisibleNode) (selectedPath : Option String)
    (delta : Int) : Option String :=
  if visibleNodes.length = 0 then selectedPath
  else
    let currentIndex : Int :=
      match selectedPath with
      | some p =>
        if p = "" then -1
        else jsFindIndex (fun item => decide (item.node.path = p)) visibleNodes
      | none => -1
    if currentIndex = -1 then
      let fallbackIndex : Nat := if delta > 0 then 0 else visibleNodes.length - 1
      match visibleNodes.get? fallbackIndex with
      | some v => some v.node.path
      | none => none
    else
      let nextIndex : Int := min (max (currentIndex + delta) 0) ((visibleNodes.length : Int) - 1)
      if nextIndex ≠ currentIndex then
        match visibleNodes.get? nextIndex.toNat with
        | some v => some v.node.path
        | none => none
      else selectedPath

/-! Embedding of `findNodeByPath` and `findParentPath` (FileExplorer): both
are explicit-stack loops popping from the array's end, so the embedded stack
keeps its top at the list head and pushed children are reversed. -/

theorem forestNodeSize_append (a b : List FileTreeNode) :
    forestNodeSize (a ++ b) = forestNodeSize a + forestNodeSize b := by
  induction a with
  | nil => simp [forestNodeSize]
  | cons x xs ih => simp [forestNodeSize, ih]; omega

theorem forestNodeSize_reverse (a : List FileTreeNode) :
    forestNodeSize a.reverse = forestNodeSize a := by
  induction a with
  | nil => rfl
  | cons x xs ih =>
    simp [forestNodeSize, List.reverse_cons, forestNodeSize_append, ih]
    omega

/-- The `while (stack.length > 0)` loop of `findNodeByPath`: pop a node,
return it if its path matches, otherwise push the children of a folder. -/
def searchStack (target : String) : List FileTreeNode → Option FileTreeNode
  | [] => none
  | .mk ty nm p c :: rest =>
    if p = target then some (.mk ty nm p c)
    else if ty = NodeType.folder then
      searchStack target ((c.getD []).reverse ++ rest)
    else searchStack target rest
termination_by stack => forestNodeSize stack
decreasing_by
  · have h := forestNodeSize_childrenOf_lt (.mk ty nm p c)
    simp only [childrenOf] at h
    simp [forestNodeSize, forestNodeSize_append, forestNodeSize_reverse]
    omega
  · have h := nodeSize_pos (.mk ty nm p c)
    simp [forestNodeSize]
    omega

/-- Source `findNodeByPath(root, path)`: `none` on a null root or a falsy
(null or empty) path, the root itself on a root match, otherwise the stack
search seeded with the root's children. -/
def findNodeByPath (root : Option FileTreeNode) (path : Option String) : Option FileTreeNode :=
  match root, path with
  | none, _ => none
  | some _, none => none
  | some r, some p =>
    if p = "" then none
    else if r.path = p then some r
    else searchStack p (childrenOf r).reverse

def parentStackSize : List (FileTreeNode × String) → Nat
  | [] => 0
  | (n, _) :: rest => nodeSize n + parentStackSize rest

theorem parentStackSize_append (a b : List (FileTreeNode × String)) :
    parentStackSize (a ++ b) = parentStackSize a + parentStackSize b := by
  induction a with
  | nil => simp [parentStackSize]
  | cons x xs ih =>
    cases x with
    | mk n q => simp [parentStackSize, ih]; omega

theorem parentStackSize_reverse (a : List (FileTreeNode × String)) :
    parentStackSize a.reverse = parentStackSize a := by
  induction a with
  | nil => rfl
  | cons x xs ih =>
    cases x with
    | mk n q =>
      simp [List.reverse_cons, parentStackSize_append, parentStackSize, ih]
      omega

theorem parentStackSize_pairs (l : List FileTreeNode) (q : String) :
    parentStackSize (l.map (fun child => (child, q))) = forestNodeSize l := by
  induction l with
  | nil => rfl
  | cons x xs ih => simp [parentStackSize, forestNodeSize, ih]

/-- The `while (stack.length > 0)` loop of `findParentPath`: pop a
(node, parentPath) pair, return the recorded parent path on a match,
otherwise push a folder's children each recording it as their parent. -/
def parentSearch (target : String) : List (FileTreeNode × String) → Option String
  | [] => none
  | (.mk ty _nm p c, parentPath) :: rest =>
    if p = target then some parentPath
    else if ty = NodeType.folder then
      parentSearch target (((c.getD []).map (fun child => (child, p))).reverse ++ rest)
    else parentSearch target rest
termination_by stack => parentStackSize stack
decreasing_by
  · have h := forestNodeSize_childrenOf_lt (.mk ty _nm p c)
    simp only [childrenOf] at h
    simp [parentStackSize, parentStackSize_append, parentStackSize_reverse,
      parentStackSize_pairs]
    omega
  · have h := nodeSize_pos (.mk ty _nm p c)
    simp [parentStackSize]
    omega

/-- Source `findParentPath(root, targetPath)`: `none` on a null root, a falsy
target path, or when the target is the root itself; otherwise the stack
search seeded with the root's children recording the root as parent. -/
def findParentPath (root : Option FileTreeNode) (targetPath : Option String) : Option String :=
  match root, targetPath with
  | none, _ => none
  | some _, none => none
  | some r, some tp =>
    if tp = "" then none
    else if r.path = tp then none
    else parentSearch tp ((childrenOf r).map (fun child => (child, r.path))).reverse

/-! Client navigation state and the keyboard / push-channel transitions of
the FileExplorer component. Only the three state cells the claims concern
(tree, expansion set, selection) are modelled; loading and error flags do
not feed back into them. -/

structure ExplorerState : Type where
  tree : Option FileTreeNode
  expanded : List String
  selectedPath : Option String

/-- The component's `visibleNodes` derived value: `tree ? flattenTree(tree, expanded) : []`. -/
def visibleNodesOf (s : ExplorerState) : List VisibleNode :=
  match s.tree with
  | some t => flattenTree t s.expanded
  | none => []

/-- The component's `selectedNode` derived value. -/
def selectedNodeOf (s : ExplorerState) : Option FileTreeNode :=
  findNodeByPath s.tree s.selectedPath

/-- The `ArrowRight` case of `handleTreeKeyDown`: with no resolved selection
select the first visible node; on a collapsed selected folder expand it; on
an expanded selected folder select its first child when one exists. -/
def handleArrowRight (s : ExplorerState) : ExplorerState :=
  match selectedNodeOf s with
  | none =>
    match (visibleNodesOf s).head? with
    | some v => { s with selectedPath := some v.node.path }
    | none => s
  | some n =>
    if n.type = NodeType.folder then
      if s.expanded.contains n.path then
        match (childrenOf n).head? with
        | some c => { s with selectedPath := some c.path }
        | none => s
      else { s with expanded := addPath s.expanded n.path }
    else s

/-- The `ArrowLeft` case of `handleTreeKeyDown`: no-op with no resolved
selection; collapse an expanded selected folder; otherwise move the
selection to the parent path when `findParentPath` yields a truthy one. -/
def handleArrowLeft (s : ExplorerState) : ExplorerState :=
  match selectedNodeOf s with
  | none => s
  | some n =>
    if n.type = NodeType.folder ∧ s.expanded.contains n.path then
      { s with expanded := deletePath s.expanded n.path }
    else
      match findParentPath s.tree s.selectedPath with
      | some pp => if pp = "" then s else { s with selectedPath := some pp }
      | none => s

/-- The push-channel `source.onmessage` handler on a parsed snapshot: replace
the tree, keep the expansion set, and keep the selection only when it still
resolves in the new snapshot (a falsy — null or empty — previous selection is
returned unchanged by the `!previous` guard). -/
def applySnapshot (s : ExplorerState) (payload : FileTreeNode) : ExplorerState :=
  { tree := some payload,
    expanded := s.expanded,
    selectedPath :=
      match s.selectedPath with
      | none => none
      | some prev =>
        if prev = "" then some prev
        else
          match findNodeByPath (some payload) (some prev) with
          | some _ => some prev
          | none => none }

/-! Embedding of the SSE route's coalescer (`scheduleEmit` with
`COALESCE_MS`): the debounce timer is the optional absolute time at which the
pending emission fires. Raw events are processed in arrival order; an event
finding a pending timer is ignored, an event at or after the pending fire
time sees the timer fire first and schedules a fresh one. -/

def COALESCE_MS : Nat := 75

def coalesceRun : List Nat → Option Nat → List Nat
  | [], none => []
  | [], some f => [f]
  | t :: ts, none => coalesceRun ts (some (t + COALESCE_MS))
  | t :: ts, some f =>
    if t < f then coalesceRun ts (some f)
    else f :: coalesceRun ts (some (t + COALESCE_MS))

/-- Emission times produced by a timeline of raw-event times (initially no
timer is pending). -/
def coalesceEmits (events : List Nat) : List Nat := coalesceRun events none

/-! Embedding of the shared-watcher lifecycle (`subscribeToFileTreeChanges`,
`ensureWatcher`, `stopWatcher`): the module-level state is whether the single
`fs.watch` handle exists and how many subscriber callbacks are registered on
the emitter. -/

structure WatcherState : Type where
  watcherActive : Bool
  listenerCount : Nat

def initialWatcherState : WatcherState := ⟨false, 0⟩

/-- Source `subscribeToFileTreeChanges`: `ensureWatcher()` (create the handle
unless present) then register the callback. -/
def subscribeStep (s : WatcherState) : WatcherState :=
  ⟨true, s.listenerCount + 1⟩

/-- The disposer returned by `subscribeToFileTreeChanges`: deregister the
callback, then `stopWatcher()` when no listener remains. -/
def unsubscribeStep (s : WatcherState) : WatcherState :=
  ⟨if s.listenerCount - 1 = 0 then false else s.watcherActive, s.listenerCount - 1⟩

/-- States reachable from the module-load state by subscriptions and by
unsubscriptions of existing subscribers. -/
inductive WatcherReachable : WatcherState → Prop where
  | init : WatcherReachable initialWatcherState
  | subscribe {s : WatcherState} : WatcherReachable s → WatcherReachable (subscribeStep s)
  | unsubscribe {s : WatcherState} : WatcherReachable s → 0 < s.listenerCount →
      WatcherReachable (unsubscribeStep s)

/-! Theorems. Each claim of the specification gets one theorem below,
preceded by helper lemmas where needed. -/

theorem coalesceRun_pending (rest : List Nat) (f : Nat) (h : ∀ t ∈ rest, t < f) :
    coalesceRun rest (some f) = [f] := by
  induction rest with
  | nil => rfl
  | cons t ts ih =>
    have ht : t < f := h t (by simp)
    simp only [coalesceRun, if_pos ht]
    exact ih fun u hu => h u (by simp [hu])

theorem coalesceRun_spaced (events : List Nat) :
    ∀ f : Nat, List.Chain' (fun a b => a + COALESCE_MS < b) events →
      (∀ t, events.head? = some t → f ≤ t) →
      coalesceRun events (some f) = f :: events.map (fun t => t + COALESCE_MS) := by
  induction events with
  | nil => intro f _ _; rfl
  | cons t ts ih =>
    intro f hc hf
    have h1 : f ≤ t := hf t rfl
    have h2 : ¬ t < f := by omega
    simp only [coalesceRun, if_neg h2, List.map_cons]
    congr 1
    apply ih (t + COALESCE_MS) hc.tail
    intro u hu
    cases ts with
    | nil => simp at hu
    | cons u' us =>
      simp at hu
      subst hu
      exact le_of_lt (List.chain'_cons.mp hc).1

/-- C8: the coalescer turns a burst of raw events — all arriving before the
timer set 75 ms after the first event fires — into exactly one signal,
scheduled a fixed delay after the first event (later events of the burst are
ignored while the timer is pending); raw events spaced farther apart than the
quiet period each produce their own signal. -/
theorem coalescer_spec :
    (∀ (t1 : Nat) (rest : List Nat), (∀ t ∈ rest, t < t1 + COALESCE_MS) →
      coalesceEmits (t1 :: rest) = [t1 + COALESCE_MS]) ∧
    (∀ events : List Nat, List.Chain' (fun a b => a + COALESCE_MS < b) events →
      coalesceEmits events = events.map (fun t => t + COALESCE_MS)) := by
  constructor
  · intro t1 rest h
    simp only [coalesceEmits, coalesceRun]
    exact coalesceRun_pending rest (t1 + COALESCE_MS) h
  · intro events hc
    cases events with
    | nil => rfl
    | cons t ts =>
      simp only [coalesceEmits, coalesceRun, List.map_cons]
      apply coalesceRun_spaced ts (t + COALESCE_MS) hc.tail
      intro u hu
      cases ts with
      | nil => simp at hu
      | cons u' us =>
        simp at hu
        subst hu
        exact le_of_lt (List.chain'_cons.mp hc).1

theorem coalescer_spec_witness :
    coalesceEmits [1000, 1010, 1074] = [1075] ∧
    coalesceEmits [0, 100, 200] = [75, 175, 275] := by
  constructor
  · exact coalescer_spec.1 1000 [1010, 1074] (by decide)
  · exact coalescer_spec.2 [0, 100, 200]
      (by norm_num [List.chain'_cons, List.chain'_singleton, COALESCE_MS])

/-- C9: in every state reachable by subscribe/unsubscribe steps, the shared
watch handle exists exactly when at least one subscriber callback is
registered; moreover a subscription (re-)establishes the watcher and
unsubscribing the last subscriber closes it. -/
theorem watcher_lifecycle (s : WatcherState) (hr : WatcherReachable s) :
    (s.watcherActive = true ↔ 0 < s.listenerCount) ∧
    (subscribeStep s).watcherActive = true ∧
    (s.listenerCount = 1 → (unsubscribeStep s).watcherActive = false) := by
  refine ⟨?_, rfl, ?_⟩
  · induction hr with
    | init => simp [initialWatcherState]
    | subscribe _ _ => simp [subscribeStep]
    | unsubscribe hr' hpos ih =>
      rename_i s'
      by_cases hc : s'.listenerCount - 1 = 0
      · simp [unsubscribeStep, hc]
      · simp only [unsubscribeStep, if_neg hc]
        constructor
        · intro _; omega
        · intro _; exact ih.mpr (by omega)
  · intro h1
    simp [unsubscribeStep, h1]

theorem watcher_lifecycle_witness :
    ((subscribeStep initialWatcherState).watcherActive = true ↔
      0 < (subscribeStep initialWatcherState).listenerCount) ∧
    (subscribeStep (subscribeStep initialWatcherState)).watcherActive = true ∧
    ((subscribeStep initialWatcherState).listenerCount = 1 →
      (unsubscribeStep (subscribeStep initialWatcherState)).watcherActive = false) :=
  watcher_lifecycle (subscribeStep initialWatcherState)
    (WatcherReachable.subscribe WatcherReachable.init)

theorem subtreeOpt_eq_forest (c : Option (List FileTreeNode)) :
    subtreeOpt c = subtreeForest (c.getD []) := by
  cases c <;> rfl

mutual
theorem countFiles_eq_descendants (n : FileTreeNode) (h : filesAreLeaves n = true)
    (hf : n.type = NodeType.folder) :
    countFilesWithinFolder n
      = ((descendantNodes n).filter (fun m => decide (m.type = NodeType.file))).length := by
  cases n with
  | mk ty nm p c =>
    have hty : ty = NodeType.folder := hf
    subst hty
    simp only [countFilesWithinFolder, if_pos rfl, descendantNodes, childrenOf]
    have hc : filesAreLeavesOpt c = true := by
      simp only [filesAreLeaves, Bool.and_eq_true] at h
      exact h.2
    cases c with
    | none => rfl
    | some l =>
      simp only [Option.getD]
      exact countFilesList_eq_descendants l hc

theorem countFilesList_eq_descendants (l : List FileTreeNode)
    (h : filesAreLeavesList l = true) :
    countFilesList l
      = ((subtreeForest l).filter (fun m => decide (m.type = NodeType.file))).length := by
  cases l with
  | nil => rfl
  | cons x xs =>
    simp only [filesAreLeavesList, Bool.and_eq_true] at h
    have hx := h.1
    have hxs := h.2
    simp only [countFilesList, subtreeForest, List.filter_append, List.length_append]
    rw [countFilesList_eq_descendants xs hxs]
    congr 1
    cases x with
    | mk ty nm p c =>
      cases ty with
      | file =>
        have hleaf : (c.getD []).isEmpty = true := by
          simp only [filesAreLeaves, Bool.and_eq_true, Bool.or_eq_true] at hx
          rcases hx.1 with h' | h'
          · exact absurd (of_decide_eq_true h') (by intro hh; cases hh)
          · exact h'
        have hnil : c.getD [] = [] := List.isEmpty_iff.mp hleaf
        simp [subtreeNodes, FileTreeNode.type, subtreeOpt_eq_forest, hnil,
          subtreeForest]
      | folder =>
        simp only [FileTreeNode.type]
        rw [if_neg (by intro hh; cases hh)]
        rw [countFiles_eq_descendants (.mk NodeType.folder nm p c)
          (by simpa only [filesAreLeaves] using hx) rfl]
        simp only [descendantNodes, childrenOf, subtreeNodes]
        rw [subtreeOpt_eq_forest]
        simp [FileTreeNode.type]
end

/-- Example for C7: a folder with no files and two nested empty folders. -/
def exampleEmptyFolders : FileTreeNode :=
  .mk .folder "top" "top"
    (some [.mk .folder "inner" "top/inner" (some [.mk .folder "leaf" "top/inner/leaf" (some [])])])

/-- Example for C7: a folder with 3 direct files and a subfolder holding 2. -/
def exampleFiveFiles : FileTreeNode :=
  .mk .folder "top" "top"
    (some [.mk .file "a" "top/a" none,
           .mk .file "b" "top/b" none,
           .mk .file "c" "top/c" none,
           .mk .folder "sub" "top/sub"
             (some [.mk .file "d" "top/sub/d" none,
                    .mk .file "e" "top/sub/e" none])])

/-- C7: on a well-formed tree (files are leaves), `countFilesWithinFolder` of
a folder is the number of its file-typed strict descendants; a node with a
missing children field yields 0 whatever its tag; and the two reference
examples count 0 and 5. -/
theorem countFilesWithinFolder_spec :
    ∀ (n : FileTreeNode) (ty : NodeType) (nm p : String),
      (filesAreLeaves n = true → n.type = NodeType.folder →
        countFilesWithinFolder n
          = ((descendantNodes n).filter (fun m => decide (m.type = NodeType.file))).length) ∧
      countFilesWithinFolder (.mk ty nm p none) = 0 ∧
      countFilesWithinFolder exampleEmptyFolders = 0 ∧
      countFilesWithinFolder exampleFiveFiles = 5 := by
  intro n ty nm p
  refine ⟨countFiles_eq_descendants n, ?_, by decide, by decide⟩
  cases ty <;> rfl

theorem countFilesWithinFolder_spec_witness :
    countFilesWithinFolder exampleFiveFiles
      = ((descendantNodes exampleFiveFiles).filter
          (fun m => decide (m.type = NodeType.file))).length ∧
    countFilesWithinFolder (.mk NodeType.folder "x" "x" none) = 0 := by
  refine ⟨?_, ?_⟩
  · exact (countFilesWithinFolder_spec exampleFiveFiles NodeType.folder "x" "x").1
      (by decide) (by decide)
  · exact (countFilesWithinFolder_spec exampleFiveFiles NodeType.folder "x" "x").2.1

/-- C6: a snapshot replacement delivered over the push channel replaces the
tree, never touches the expansion set, and keeps the selection exactly when
the previously selected path still resolves (via `findNodeByPath`) in the
new snapshot, clearing it to `none` otherwise. A non-empty previous path is
assumed: the data model's paths are non-empty, and the code's `!previous`
truthiness guard short-circuits on the empty string. -/
theorem applySnapshot_spec :
    ∀ (s : ExplorerState) (payload : FileTreeNode) (p : String),
      (applySnapshot s payload).expanded = s.expanded ∧
      (applySnapshot s payload).tree = some payload ∧
      (s.selectedPath = none → (applySnapshot s payload).selectedPath = none) ∧
      (s.selectedPath = some p → p ≠ "" →
        (applySnapshot s payload).selectedPath =
          if (findNodeByPath (some payload) (some p)).isSome then some p else none) := by
  intro s payload p
  refine ⟨rfl, rfl, ?_, ?_⟩
  · intro h
    simp [applySnapshot, h]
  · intro h hp
    simp only [applySnapshot, h, if_neg hp]
    cases findNodeByPath (some payload) (some p) <;> simp

theorem applySnapshot_spec_witness :
    (applySnapshot
        ⟨some (.mk .folder "r" "root" (some [.mk .file "a" "root/a" none])),
         ["root"], some "root/a"⟩
        (.mk .folder "r" "root" (some []))).expanded = ["root"] ∧
    (applySnapshot
        ⟨some (.mk .folder "r" "root" (some [.mk .file "a" "root/a" none])),
         ["root"], some "root/a"⟩
        (.mk .folder "r" "root" (some []))).selectedPath =
      if (findNodeByPath (some (.mk .folder "r" "root" (some []))) (some "root/a")).isSome
      then some "root/a" else none := by
  refine ⟨?_, ?_⟩
  · exact (applySnapshot_spec
      ⟨some (.mk .folder "r" "root" (some [.mk .file "a" "root/a" none])),
       ["root"], some "root/a"⟩
      (.mk .folder "r" "root" (some [])) "root/a").1
  · exact (applySnapshot_spec
      ⟨some (.mk .folder "r" "root" (some [.mk .file "a" "root/a" none])),
       ["root"], some "root/a"⟩
      (.mk .folder "r" "root" (some [])) "root/a").2.2.2 rfl (by decide)

theorem jsFindIdx_eq_none {α : Type} (pred : α → Bool) (l : List α)
    (h : ∀ x ∈ l, pred x = false) : jsFindIdx pred l = none := by
  induction l with
  | nil => rfl
  | cons x xs ih =>
    simp only [jsFindIdx, h x (by simp), Bool.false_eq_true, if_false]
    rw [ih fun u hu => h u (by simp [hu])]
    rfl

theorem jsFindIdx_append_cons {α : Type} (pred : α → Bool) (pre : List α) (v : α)
    (post : List α) (hpre : ∀ x ∈ pre, pred x = false) (hv : pred v = true) :
    jsFindIdx pred (pre ++ v :: post) = some pre.length := by
  induction pre with
  | nil => simp [jsFindIdx, hv]
  | cons x xs ih =>
    simp only [List.cons_append, jsFindIdx, hpre x (by simp), Bool.false_eq_true, if_false,
      List.append_eq]
    rw [ih fun u hu => hpre u (by simp [hu])]
    rfl

theorem jsFindIdx_lt_length {α : Type} (pred : α → Bool) (l : List α) (i : Nat)
    (h : jsFindIdx pred l = some i) : i < l.length := by
  induction l generalizing i with
  | nil => cases h
  | cons x xs ih =>
    simp only [jsFindIdx] at h
    by_cases hx : pred x = true
    · rw [if_pos hx] at h
      injection h with h
      simp [← h]
    · rw [if_neg hx, Option.map_eq_some'] at h
      obtain ⟨j, hj, rfl⟩ := h
      have := ih j hj
      simp
      omega

theorem get?_append_length_add {α : Type} (pre l2 : List α) (k : Nat) :
    (pre ++ l2).get? (pre.length + k) = l2.get? k := by
  induction pre with
  | nil => simp
  | cons x xs ih => simpa [Nat.succ_add] using ih

theorem get?_append_left {α : Type} (pre l2 : List α) (i : Nat) (h : i < pre.length) :
    (pre ++ l2).get? i = pre.get? i := by
  induction pre generalizing i with
  | nil => simp at h
  | cons x xs ih =>
    cases i with
    | zero => rfl
    | succ j =>
      simp only [List.cons_append, List.get?_cons_succ]
      exact ih j (by simpa using h)

theorem getLast?_eq_get?_length_sub_one {α : Type} (l : List α) :
    l.getLast? = l.get? (l.length - 1) := by
  induction l with
  | nil => rfl
  | cons x xs ih =>
    cases xs with
    | nil => rfl
    | cons y ys =>
      rw [List.getLast?_cons_cons, ih]
      simp [Nat.succ_sub_one]

theorem moveSelection_at_index (nodes : List VisibleNode) (p : String) (i : Nat)
    (delta : Int) (hp : p ≠ "")
    (hidx : jsFindIdx (fun item => decide (item.node.path = p)) nodes = some i) :
    moveSelection nodes (some p) delta =
      if min (max ((i : Int) + delta) 0) ((nodes.length : Int) - 1) ≠ (i : Int) then
        match nodes.get? (min (max ((i : Int) + delta) 0) ((nodes.length : Int) - 1)).toNat with
        | some u => some u.node.path
        | none => none
      else some p := by
  have hi := jsFindIdx_lt_length _ _ _ hidx
  have hlen : ¬ nodes.length = 0 := by omega
  have hneg : ¬ ((i : Int) = -1) := by omega
  simp only [moveSelection, if_neg hlen, jsFindIndex, hidx, if_neg hp, if_neg hneg]

theorem moveSelection_fallback (nodes : List VisibleNode) (sel : Option String)
    (delta : Int) (hlen : nodes.length ≠ 0)
    (hsel : (match sel with
             | some p => if p = "" then (-1 : Int)
               else jsFindIndex (fun item => decide (item.node.path = p)) nodes
             | none => (-1 : Int)) = -1) :
    moveSelection nodes sel delta =
      match nodes.get? (if delta > 0 then 0 else nodes.length - 1) with
      | some v => some v.node.path
      | none => none := by
  simp only [moveSelection, if_neg hlen, hsel]
  simp

/-- C3: on a non-empty visible sequence, Move-down with no selection selects
the first visible node and Move-up the last; with the selection at index i
(the decomposition `pre ++ v :: post` puts i = pre.length), Move-down yields
the next node and Move-up the previous one, and at the sequence bounds the
selection is left unchanged (no wraparound). A non-empty selected path is
assumed, matching the data model and the code's truthiness guard. -/
theorem moveSelection_clamped :
    ∀ (nodes pre post : List VisibleNode) (v w : VisibleNode) (p : String),
      (nodes.head? = some v → moveSelection nodes none 1 = some v.node.path) ∧
      (nodes.getLast? = some w → moveSelection nodes none (-1) = some w.node.path) ∧
      (p ≠ "" → (∀ u ∈ pre, u.node.path ≠ p) → v.node.path = p →
        moveSelection (pre ++ v :: post) (some p) 1
          = some ((post.head?.map fun u => u.node.path).getD p) ∧
        moveSelection (pre ++ v :: post) (some p) (-1)
          = some ((pre.getLast?.map fun u => u.node.path).getD p)) := by
  intro nodes pre post v w p
  refine ⟨?_, ?_, ?_⟩
  · intro hv
    cases nodes with
    | nil => cases hv
    | cons x xs =>
      rw [moveSelection_fallback (x :: xs) none 1 (by simp) rfl]
      injection hv with hv
      subst hv
      norm_num
  · intro hw
    have hne : nodes.length ≠ 0 := by
      cases nodes
      · cases hw
      · simp
    rw [moveSelection_fallback nodes none (-1) hne rfl]
    have hg : nodes.get? (nodes.length - 1) = some w := by
      rw [← getLast?_eq_get?_length_sub_one]
      exact hw
    have hcond : ¬ ((-1 : Int) > 0) := by norm_num
    rw [if_neg hcond, hg]
  · intro hp hpre hvp
    have hidx : jsFindIdx (fun item => decide (item.node.path = p)) (pre ++ v :: post)
        = some pre.length :=
      jsFindIdx_append_cons _ pre v post (fun x hx => by simp [hpre x hx]) (by simp [hvp])
    constructor
    · rw [moveSelection_at_index _ p pre.length 1 hp hidx]
      cases post with
      | nil =>
        have hmin : min (max ((pre.length : Int) + 1) 0) (((pre ++ [v]).length : Int) - 1)
            = (pre.length : Int) := by
          simp
        rw [hmin]
        simp
      | cons c cs =>
        have hmin : min (max ((pre.length : Int) + 1) 0)
            (((pre ++ v :: c :: cs).length : Int) - 1) = (pre.length : Int) + 1 := by
          simp
          omega
        rw [hmin]
        have hne2 : ((pre.length : Int) + 1) ≠ (pre.length : Int) := by omega
        rw [if_pos hne2]
        have htn : ((pre.length : Int) + 1).toNat = pre.length + 1 := by omega
        rw [htn]
        have hg : (pre ++ v :: c :: cs).get? (pre.length + 1) = some c := by
          have h1 := get?_append_length_add pre (v :: c :: cs) 1
          simpa using h1
        rw [hg]
        simp
    · rw [moveSelection_at_index _ p pre.length (-1) hp hidx]
      cases pre with
      | nil =>
        have hmin : min (max (((List.length ([] : List VisibleNode)) : Int) + (-1)) 0)
            ((([] ++ v :: post).length : Int) - 1) = ((0 : Nat) : Int) := by
          simp
        rw [hmin]
        simp
      | cons q qs =>
        have hmin : min (max (((q :: qs).length : Int) + (-1)) 0)
            (((q :: qs ++ v :: post).length : Int) - 1) = (qs.length : Int) := by
          simp
          omega
        rw [hmin]
        have hne2 : ((qs.length : Int)) ≠ (((q :: qs).length : Int)) := by
          simp
        rw [if_pos hne2]
        have htn : ((qs.length : Int)).toNat = qs.length := by omega
        rw [htn]
        have hlt : qs.length < (q :: qs).length := by simp
        rw [get?_append_left (q :: qs) (v :: post) qs.length hlt]
        have hg := getLast?_eq_get?_length_sub_one (q :: qs)
        cases hgl : (q :: qs).getLast? with
        | none =>
          rw [hgl] at hg
          have h2 : (q :: qs).get? ((q :: qs).length - 1) = none := hg.symm
          rw [List.get?_eq_none] at h2
          simp at h2
        | some u =>
          rw [hgl] at hg
          have h2 : (q :: qs).get? qs.length = some u := by
            simpa using hg.symm
          rw [h2]
          simp

theorem moveSelection_clamped_witness :
    (moveSelection [⟨.mk .file "A" "root/A" none, 1⟩, ⟨.mk .file "B" "root/B" none, 1⟩]
        none 1 = some "root/A") ∧
    (moveSelection [⟨.mk .file "A" "root/A" none, 1⟩, ⟨.mk .file "B" "root/B" none, 1⟩]
        (some "root/A") 1
      = some ((([⟨.mk .file "B" "root/B" none, 1⟩] : List VisibleNode).head?.map
          fun u => u.node.path).getD "root/A")) := by
  constructor
  · exact (moveSelection_clamped
      [⟨.mk .file "A" "root/A" none, 1⟩, ⟨.mk .file "B" "root/B" none, 1⟩]
      [] [⟨.mk .file "B" "root/B" none, 1⟩]
      ⟨.mk .file "A" "root/A" none, 1⟩ ⟨.mk .file "B" "root/B" none, 1⟩
      "root/A").1 rfl
  · exact ((moveSelection_clamped
      [⟨.mk .file "A" "root/A" none, 1⟩, ⟨.mk .file "B" "root/B" none, 1⟩]
      [] [⟨.mk .file "B" "root/B" none, 1⟩]
      ⟨.mk .file "A" "root/A" none, 1⟩ ⟨.mk .file "B" "root/B" none, 1⟩
      "root/A").2.2 (by decide) (by simp) rfl).1

/-- C10: when the selected path does not occur anywhere in the visible
sequence (for instance a node hidden inside a collapsed ancestor), movement
behaves exactly like the no-selection case: Move-down selects the first
visible node and Move-up the last, regardless of the hidden node's position
in the tree. -/
theorem moveSelection_hidden_selection :
    ∀ (nodes : List VisibleNode) (p : String) (v w : VisibleNode),
      p ≠ "" → (∀ u ∈ nodes, u.node.path ≠ p) →
      nodes.head? = some v → nodes.getLast? = some w →
      moveSelection nodes (some p) 1 = some v.node.path ∧
      moveSelection nodes (some p) (-1) = some w.node.path := by
  intro nodes p v w hp hall hv hw
  have hne : nodes.length ≠ 0 := by
    cases nodes
    · cases hv
    · simp
  have hidx : jsFindIdx (fun item => decide (item.node.path = p)) nodes = none :=
    jsFindIdx_eq_none _ _ fun x hx => by simp [hall x hx]
  have hsel : (if p = "" then (-1 : Int)
      else jsFindIndex (fun item => decide (item.node.path = p)) nodes) = -1 := by
    simp only [if_neg hp, jsFindIndex, hidx]
  constructor
  · rw [moveSelection_fallback nodes (some p) 1 hne hsel]
    cases nodes with
    | nil => cases hv
    | cons x xs =>
      injection hv with hv
      subst hv
      norm_num
  · rw [moveSelection_fallback nodes (some p) (-1) hne hsel]
    have hg : nodes.get? (nodes.length - 1) = some w := by
      rw [← getLast?_eq_get?_length_sub_one]
      exact hw
    have hcond : ¬ ((-1 : Int) > 0) := by norm_num
    rw [if_neg hcond, hg]

theorem moveSelection_hidden_selection_witness :
    moveSelection [⟨.mk .folder "r" "root" (some [.mk .file "h" "root/h" none]), 0⟩]
      (some "root/h") 1 = some "root" ∧
    moveSelection [⟨.mk .folder "r" "root" (some [.mk .file "h" "root/h" none]), 0⟩]
      (some "root/h") (-1) = some "root" :=
  moveSelection_hidden_selection
    [⟨.mk .folder "r" "root" (some [.mk .file "h" "root/h" none]), 0⟩]
    "root/h"
    ⟨.mk .folder "r" "root" (some [.mk .file "h" "root/h" none]), 0⟩
    ⟨.mk .folder "r" "root" (some [.mk .file "h" "root/h" none]), 0⟩
    (by decide) (by decide) rfl rfl

mutual
theorem flattenVisit_eq_spec (expanded : List String) (n : FileTreeNode) (d : Nat)
    (acc : List VisibleNode) :
    flattenVisit expanded n d acc = acc ++ specProjectNode expanded n d := by
  cases n with
  | mk ty nm p c =>
    simp only [flattenVisit, specProjectNode]
    by_cases h : ty = NodeType.folder ∧ expanded.contains p = true
    · rw [if_pos h, if_pos h, flattenVisitOpt_eq_spec]
      simp
    · rw [if_neg h, if_neg h]

theorem flattenVisitOpt_eq_spec (expanded : List String) (c : Option (List FileTreeNode))
    (d : Nat) (acc : List VisibleNode) :
    flattenVisitOpt expanded c d acc = acc ++ specProjectOpt expanded c d := by
  cases c with
  | none => simp [flattenVisitOpt, specProjectOpt]
  | some l =>
    simp only [flattenVisitOpt, specProjectOpt]
    exact flattenVisitList_eq_spec expanded l d acc

theorem flattenVisitList_eq_spec (expanded : List String) (l : List FileTreeNode)
    (d : Nat) (acc : List VisibleNode) :
    flattenVisitList expanded l d acc = acc ++ specProjectForest expanded l d := by
  cases l with
  | nil => simp [flattenVisitList, specProjectForest]
  | cons x xs =>
    simp only [flattenVisitList, specProjectForest]
    rw [flattenVisitList_eq_spec expanded xs d (flattenVisit expanded x d acc),
      flattenVisit_eq_spec expanded x d acc]
    simp
end

/-- C1: `flattenTree` is exactly the projection the spec describes — the
depth-first pre-order sequence in which the root always comes first at depth
0, a folder's children follow it, each at depth+1, exactly when the folder's
path belongs to the expansion set, and a file node is always a leaf of the
projection whatever the expansion set contains. -/
theorem flattenTree_projects :
    ∀ (root : FileTreeNode) (expanded : List String),
      flattenTree root expanded = specProjectNode expanded root 0 ∧
      (flattenTree root expanded).head? = some ⟨root, 0⟩ ∧
      (∀ (n : FileTreeNode) (d : Nat), n.type = NodeType.file →
        specProjectNode expanded n d = [⟨n, d⟩]) := by
  intro root expanded
  have hmain : flattenTree root expanded = specProjectNode expanded root 0 := by
    rw [flattenTree, flattenVisit_eq_spec]
    simp
  refine ⟨hmain, ?_, ?_⟩
  · rw [hmain]
    cases root with
    | mk ty nm p c => simp [specProjectNode]
  · intro n d hfile
    cases n with
    | mk ty nm p c =>
      have hty : ty = NodeType.file := hfile
      subst hty
      simp only [specProjectNode]
      rw [if_neg (by intro hh; cases hh.1)]

theorem flattenTree_projects_witness :
    flattenTree (.mk .folder "r" "root" (some [.mk .file "a" "root/a" none])) ["root"]
      = specProjectNode ["root"] (.mk .folder "r" "root" (some [.mk .file "a" "root/a" none])) 0 ∧
    (flattenTree (.mk .folder "r" "root" (some [.mk .file "a" "root/a" none]))
        ["root"]).head?
      = some ⟨.mk .folder "r" "root" (some [.mk .file "a" "root/a" none]), 0⟩ ∧
    specProjectNode ["root"] (.mk .file "a" "root/a" none) 1
      = [⟨.mk .file "a" "root/a" none, 1⟩] := by
  have h := flattenTree_projects
    (.mk .folder "r" "root" (some [.mk .file "a" "root/a" none])) ["root"]
  exact ⟨h.1, h.2.1, h.2.2 (.mk .file "a" "root/a" none) 1 rfl⟩

/-- C4: the Expand (ArrowRight) transition adds a collapsed selected folder's
path to the expansion set leaving everything else unchanged, moves the
selection to the first child of an expanded selected folder leaving the
expansion set unchanged, and with no selection selects the first visible
node. -/
theorem handleArrowRight_spec :
    ∀ (s : ExplorerState) (n c : FileTreeNode) (cs : List FileTreeNode) (v : VisibleNode),
      (selectedNodeOf s = some n → n.type = NodeType.folder →
        s.expanded.contains n.path = false →
        handleArrowRight s = { s with expanded := addPath s.expanded n.path }) ∧
      (selectedNodeOf s = some n → n.type = NodeType.folder →
        s.expanded.contains n.path = true → childrenOf n = c :: cs →
        handleArrowRight s = { s with selectedPath := some c.path }) ∧
      (s.selectedPath = none → (visibleNodesOf s).head? = some v →
        handleArrowRight s = { s with selectedPath := some v.node.path }) := by
  intro s n c cs v
  refine ⟨?_, ?_, ?_⟩
  · intro h hf hcont
    simp only [handleArrowRight, h, if_pos hf, hcont, Bool.false_eq_true, if_false]
  · intro h hf hcont hc
    simp only [handleArrowRight, h, if_pos hf, hcont, if_true, hc, List.head?_cons]
  · intro h hv
    have hsel : selectedNodeOf s = none := by
      unfold selectedNodeOf
      rw [h]
      cases s.tree with
      | none => rfl
      | some t => rfl
    simp only [handleArrowRight, hsel, hv]

theorem handleArrowRight_spec_witness :
    handleArrowRight
        ⟨some (.mk .folder "r" "root" (some [.mk .file "a" "root/a" none])), [], some "root"⟩
      = ⟨some (.mk .folder "r" "root" (some [.mk .file "a" "root/a" none])), ["root"],
          some "root"⟩ ∧
    handleArrowRight
        ⟨some (.mk .folder "r" "root" (some [.mk .file "a" "root/a" none])), ["root"],
          some "root"⟩
      = ⟨some (.mk .folder "r" "root" (some [.mk .file "a" "root/a" none])), ["root"],
          some "root/a"⟩ ∧
    handleArrowRight
        ⟨some (.mk .folder "r" "root" (some [.mk .file "a" "root/a" none])), [], none⟩
      = ⟨some (.mk .folder "r" "root" (some [.mk .file "a" "root/a" none])), [],
          some "root"⟩ := by
  refine ⟨?_, ?_, ?_⟩
  · exact (handleArrowRight_spec
      ⟨some (.mk .folder "r" "root" (some [.mk .file "a" "root/a" none])), [], some "root"⟩
      (.mk .folder "r" "root" (some [.mk .file "a" "root/a" none]))
      (.mk .file "a" "root/a" none) [] ⟨.mk .file "a" "root/a" none, 1⟩).1
      rfl rfl (by decide)
  · exact (handleArrowRight_spec
      ⟨some (.mk .folder "r" "root" (some [.mk .file "a" "root/a" none])), ["root"],
        some "root"⟩
      (.mk .folder "r" "root" (some [.mk .file "a" "root/a" none]))
      (.mk .file "a" "root/a" none) [] ⟨.mk .file "a" "root/a" none, 1⟩).2.1
      rfl rfl (by decide) rfl
  · exact (handleArrowRight_spec
      ⟨some (.mk .folder "r" "root" (some [.mk .file "a" "root/a" none])), [], none⟩
      (.mk .folder "r" "root" (some [.mk .file "a" "root/a" none]))
      (.mk .file "a" "root/a" none) []
      ⟨.mk .folder "r" "root" (some [.mk .file "a" "root/a" none]), 0⟩).2.2 rfl rfl

/-- C5: the Collapse (ArrowLeft) transition removes an expanded selected
folder's path from the expansion set leaving the selection unchanged; on a
collapsed folder or a file it moves the selection to the parent path that
`findParentPath` computes by searching the current snapshot; and on the root
node, which `findParentPath` gives no parent for, it is a no-op. -/
theorem handleArrowLeft_spec :
    ∀ (s : ExplorerState) (n : FileTreeNode) (pp : String) (t : FileTreeNode),
      (selectedNodeOf s = some n → n.type = NodeType.folder →
        s.expanded.contains n.path = true →
        handleArrowLeft s = { s with expanded := deletePath s.expanded n.path }) ∧
      (selectedNodeOf s = some n →
        (n.type = NodeType.file ∨ s.expanded.contains n.path = false) →
        findParentPath s.tree s.selectedPath = some pp → pp ≠ "" →
        handleArrowLeft s = { s with selectedPath := some pp }) ∧
      (s.tree = some t → s.selectedPath = some t.path → t.path ≠ "" →
        (t.type = NodeType.file ∨ s.expanded.contains t.path = false) →
        handleArrowLeft s = s) := by
  intro s n pp t
  have hcondf : ∀ (m : FileTreeNode),
      (m.type = NodeType.file ∨ s.expanded.contains m.path = false) →
      ¬ (m.type = NodeType.folder ∧ s.expanded.contains m.path = true) := by
    intro m hm hcontra
    rcases hm with hm | hm
    · rw [hm] at hcontra
      cases hcontra.1
    · rw [hcontra.2] at hm
      cases hm
  refine ⟨?_, ?_, ?_⟩
  · intro h hf hcont
    simp only [handleArrowLeft, h, if_pos (And.intro hf hcont)]
  · intro h hm hpp hppne
    simp only [handleArrowLeft, h, if_neg (hcondf n hm), hpp, if_neg hppne]
  · intro ht hsel hne hm
    have h : selectedNodeOf s = some t := by
      simp only [selectedNodeOf, ht, hsel, findNodeByPath, if_neg hne]
      simp
    have hpar : findParentPath s.tree s.selectedPath = none := by
      simp only [ht, hsel, findParentPath, if_neg hne]
      simp
    simp only [handleArrowLeft, h, if_neg (hcondf t hm), hpar]

theorem handleArrowLeft_spec_witness :
    handleArrowLeft
        ⟨some (.mk .folder "r" "root" (some [.mk .file "a" "root/a" none])), ["root"],
          some "root"⟩
      = ⟨some (.mk .folder "r" "root" (some [.mk .file "a" "root/a" none])), [],
          some "root"⟩ ∧
    handleArrowLeft
        ⟨some (.mk .folder "r" "root" (some [.mk .file "a" "root/a" none])), ["root"],
          some "root/a"⟩
      = ⟨some (.mk .folder "r" "root" (some [.mk .file "a" "root/a" none])), ["root"],
          some "root"⟩ ∧
    handleArrowLeft
        ⟨some (.mk .folder "r" "root" (some [.mk .file "a" "root/a" none])), [],
          some "root"⟩
      = ⟨some (.mk .folder "r" "root" (some [.mk .file "a" "root/a" none])), [],
          some "root"⟩ := by
  refine ⟨?_, ?_, ?_⟩
  · exact (handleArrowLeft_spec
      ⟨some (.mk .folder "r" "root" (some [.mk .file "a" "root/a" none])), ["root"],
        some "root"⟩
      (.mk .folder "r" "root" (some [.mk .file "a" "root/a" none])) "root"
      (.mk .folder "r" "root" (some [.mk .file "a" "root/a" none]))).1
      rfl rfl (by decide)
  · exact (handleArrowLeft_spec
      ⟨some (.mk .folder "r" "root" (some [.mk .file "a" "root/a" none])), ["root"],
        some "root/a"⟩
      (.mk .file "a" "root/a" none) "root"
      (.mk .folder "r" "root" (some [.mk .file "a" "root/a" none]))).2.1
      (by simp +decide [selectedNodeOf, findNodeByPath, searchStack, childrenOf])
      (Or.inl rfl)
      (by simp +decide [findParentPath, parentSearch, childrenOf])
      (by decide)
  · exact (handleArrowLeft_spec
      ⟨some (.mk .folder "r" "root" (some [.mk .file "a" "root/a" none])), [],
        some "root"⟩
      (.mk .folder "r" "root" (some [.mk .file "a" "root/a" none])) "root"
      (.mk .folder "r" "root" (some [.mk .file "a" "root/a" none]))).2.2
      rfl rfl (by decide) (Or.inr (by decide))

/-- C2 counterexample: with buffer `"a "` (non-empty) and the single visible
node named `"ax"`, `findTypeaheadMatch` returns that node although its name
does not start with the buffer case-insensitively — the code matches against
the whitespace-trimmed buffer, refuting the claim as stated. -/
theorem findTypeaheadMatch_counterexample :
    (findTypeaheadMatch "a " [⟨.mk .file "ax" "root/ax" none, 0⟩] none).map
        (fun u => u.node.name) = some "ax" ∧
    jsStartsWith (jsToLower "ax") (jsToLower "a ") = false := by
  constructor
  · rfl
  · rfl

theorem add_cast_emod_toNat (a n : Nat) :
    (((a : Int) + (n : Int)) % (n : Int)).toNat = a % n := by
  have h1 : ((a : Int) + (n : Int)) % (n : Int) = (a : Int) % (n : Int) := by
    have h2 := Int.add_mul_emod_self_left (a : Int) (n : Int) 1
    rw [mul_one] at h2
    exact h2
  rw [h1, ← Int.ofNat_emod]
  exact Int.toNat_ofNat (a % n)

theorem typeaheadLoop_eq_specScan (buf : String) (nodes : List VisibleNode) (i : Nat) :
    ∀ (k offset : Nat),
      typeaheadLoop (jsToLower buf) nodes (i : Int) nodes.length offset k
        = specScan buf nodes (i + offset) k := by
  intro k
  induction k with
  | zero => intro offset; rfl
  | succ k ih =>
    intro offset
    simp only [typeaheadLoop, specScan]
    have hidx : (((i : Int) + (offset : Int) + (nodes.length : Int))
        % (nodes.length : Int)).toNat = (i + offset) % nodes.length := by
      have h1 := add_cast_emod_toNat (i + offset) nodes.length
      push_cast at h1
      exact h1
    rw [hidx]
    cases h : nodes.get? ((i + offset) % nodes.length) with
    | none => rfl
    | some v =>
      dsimp only
      by_cases hs : jsStartsWith (jsToLower v.node.name) (jsToLower buf) = true
      · rw [if_pos hs, if_pos hs]
      · rw [if_neg hs, if_neg hs]
        exact ih (offset + 1)

theorem add_mod_ne (i t n : Nat) (hi : i < n) (ht1 : 1 ≤ t) (htn : t < n) :
    (i + t) % n ≠ i := by
  by_cases h : i + t < n
  · rw [Nat.mod_eq_of_lt h]
    omega
  · have h2 : (i + t) % n = i + t - n := by
      rw [Nat.mod_eq_sub_mod (by omega)]
      exact Nat.mod_eq_of_lt (by omega)
    omega

theorem specScan_only_match (buf : String) (nodes : List VisibleNode) (i : Nat)
    (v : VisibleNode) (hv : nodes.get? i = some v)
    (hmatch : jsStartsWith (jsToLower v.node.name) (jsToLower buf) = true)
    (hother : ∀ j w, j < nodes.length → j ≠ i → nodes.get? j = some w →
      jsStartsWith (jsToLower w.node.name) (jsToLower buf) = false) :
    ∀ (k pos : Nat), pos + k = i + nodes.length + 1 → i + 1 ≤ pos → 1 ≤ k →
      specScan buf nodes pos k = some v := by
  have hi : i < nodes.length := by
    by_contra hcon
    have hno : nodes.get? i = none := List.get?_eq_none.mpr (by omega)
    rw [hno] at hv
    cases hv
  intro k
  induction k with
  | zero =>
    intro pos _ _ hk
    exact absurd hk (by omega)
  | succ k ih =>
    intro pos hsum hge _
    simp only [specScan]
    cases k with
    | zero =>
      have hpos : pos = i + nodes.length := by omega
      subst hpos
      have hmod : (i + nodes.length) % nodes.length = i := by
        rw [Nat.add_mod_right]
        exact Nat.mod_eq_of_lt hi
      rw [hmod, hv]
      dsimp only
      rw [if_pos hmatch]
    | succ k' =>
      have hne : pos % nodes.length ≠ i := by
        have hsplit : pos = i + (pos - i) := by omega
        rw [hsplit]
        exact add_mod_ne i (pos - i) nodes.length hi (by omega) (by omega)
      have hlt : pos % nodes.length < nodes.length := Nat.mod_lt _ (by omega)
      cases hw : nodes.get? (pos % nodes.length) with
      | none =>
        exfalso
        rw [List.get?_eq_none] at hw
        omega
      | some w =>
        dsimp only
        rw [if_neg (by simp [hother (pos % nodes.length) w hlt hne hw])]
        exact ih (pos + 1) (by omega) (by omega) (by omega)

/-- C2 (amended): for a buffer whose whitespace-trim is non-empty and a
non-empty selected path occurring in the visible sequence at (first) index i,
`findTypeaheadMatch` equals the spec's circular scan — one full circle
starting immediately after the selection, stopping at the first node whose
name starts with the TRIMMED buffer case-insensitively; in particular, when
the selected node is the only matching node, the scan wraps the full circle
and re-selects that same node. (The original claim, matching against the
untrimmed buffer, is refuted by `findTypeaheadMatch_counterexample`.) -/
theorem findTypeaheadMatch_circular :
    ∀ (query : String) (nodes : List VisibleNode) (p : String) (i : Nat) (v : VisibleNode),
      jsToLower (jsTrim query) ≠ "" → p ≠ "" →
      jsFindIdx (fun item => decide (item.node.path = p)) nodes = some i →
      (findTypeaheadMatch query nodes (some p)
          = specCircularMatch (jsTrim query) nodes i ∧
        (nodes.get? i = some v →
          jsStartsWith (jsToLower v.node.name) (jsToLower (jsTrim query)) = true →
          (∀ j w, j < nodes.length → j ≠ i → nodes.get? j = some w →
            jsStartsWith (jsToLower w.node.name) (jsToLower (jsTrim query)) = false) →
          findTypeaheadMatch query nodes (some p) = some v)) := by
  intro query nodes p i v hq hp hidx
  have hi : i < nodes.length := jsFindIdx_lt_length _ _ _ hidx
  have hchar : findTypeaheadMatch query nodes (some p)
      = specCircularMatch (jsTrim query) nodes i := by
    have hcond : ¬ (jsToLower (jsTrim query) = "" ∨ nodes.length = 0) := by
      push_neg
      exact ⟨hq, by omega⟩
    simp only [findTypeaheadMatch, if_neg hcond, if_neg hp, jsFindIndex, hidx]
    rw [specCircularMatch]
    exact typeaheadLoop_eq_specScan (jsTrim query) nodes i nodes.length 1
  refine ⟨hchar, ?_⟩
  intro hv hmatch hother
  rw [hchar, specCircularMatch]
  exact specScan_only_match (jsTrim query) nodes i v hv hmatch hother
    nodes.length (i + 1) (by omega) (by omega) (by omega)

theorem findTypeaheadMatch_circular_witness :
    findTypeaheadMatch "apple"
        [⟨.mk .file "Apple" "root/Apple" none, 1⟩, ⟨.mk .file "B" "root/B" none, 1⟩]
        (some "root/Apple")
      = specCircularMatch (jsTrim "apple")
          [⟨.mk .file "Apple" "root/Apple" none, 1⟩, ⟨.mk .file "B" "root/B" none, 1⟩] 0 ∧
    findTypeaheadMatch "apple"
        [⟨.mk .file "Apple" "root/Apple" none, 1⟩, ⟨.mk .file "B" "root/B" none, 1⟩]
        (some "root/Apple")
      = some ⟨.mk .file "Apple" "root/Apple" none, 1⟩ := by
  have h := findTypeaheadMatch_circular "apple"
    [⟨.mk .file "Apple" "root/Apple" none, 1⟩, ⟨.mk .file "B" "root/B" none, 1⟩]
    "root/Apple" 0 ⟨.mk .file "Apple" "root/Apple" none, 1⟩
    (by decide) (by decide) (by decide)
  refine ⟨h.1, h.2 rfl (by decide) ?_⟩
  intro j w hj hne hw
  have hj2 : j < 2 := by simpa using hj
  interval_cases j
  · exact absurd rfl hne
  · rw [show ([⟨.mk .file "Apple" "root/Apple" none, 1⟩,
        ⟨.mk .file "B" "root/B" none, 1⟩] : List VisibleNode).get? 1
        = some ⟨.mk .file "B" "root/B" none, 1⟩ from rfl] at hw
    injection hw with hw
    rw [← hw]
    decide
